import Mathlib

/-!
Verification of the invoice-renaming tool `rename_invoice_by_client.py`.

Strings from the Python program are embedded as `List Char`; each regular
expression of the source is embedded as an executable matcher over the
character alphabet the program works with (ASCII plus the Spanish
diacritics appearing in its own patterns).  Python's `\w`, `\s` and `\d`
classes are modelled over that alphabet; the lines fed to the per-line
matchers never contain a newline (they come from splitting on newlines),
matching the assumptions of the original `re` patterns.
-/

namespace Novafact

/-- Python whitespace (`\s`, `str.strip`) over the program's alphabet. -/
def esWS (c : Char) : Bool :=
  c = ' ' || c = '\t' || c = '\n' || c = '\r' || c = '\x0b' || c = '\x0c'

/-- Spanish accented letters used by the program's own character classes. -/
def letrasAcentuadas : List Char :=
  ['Á', 'É', 'Í', 'Ó', 'Ú', 'Ñ', 'Ü', 'á', 'é', 'í', 'ó', 'ú', 'ñ', 'ü']

/-- Python `\w` (word character) over the program's alphabet:
ASCII letters, digits, underscore, and the Spanish diacritics. -/
def esPalabraChar (c : Char) : Bool :=
  c.isAlpha || c.isDigit || c = '_' || letrasAcentuadas.contains c

/-- Case folding for case-insensitive matching (ASCII plus the accented
letters that occur in the program's patterns). -/
def minuscula (c : Char) : Char :=
  if c = 'Á' then 'á' else if c = 'É' then 'é' else if c = 'Í' then 'í'
  else if c = 'Ó' then 'ó' else if c = 'Ú' then 'ú' else if c = 'Ñ' then 'ñ'
  else if c = 'Ü' then 'ü' else c.toLower

/-- Case-insensitive literal match at the start of `s`; returns the
remainder after the literal.  The pattern `p` is given in lowercase. -/
def matchLit : List Char → List Char → Option (List Char)
  | [], s => some s
  | _ :: _, [] => none
  | p :: ps, c :: cs => if minuscula c = p then matchLit ps cs else none

/-- Character class `[oó]` under `re.IGNORECASE`. -/
def matchOO : List Char → Option (List Char)
  | c :: cs => if minuscula c = 'o' || minuscula c = 'ó' then some cs else none
  | [] => none

/-- Character class `[ií]` under `re.IGNORECASE`. -/
def matchII : List Char → Option (List Char)
  | c :: cs => if minuscula c = 'i' || minuscula c = 'í' then some cs else none
  | [] => none

/-- `str.strip()`: drop whitespace at both ends. -/
def strip (s : List Char) : List Char :=
  ((s.dropWhile esWS).reverse.dropWhile esWS).reverse

/-- `str.strip(" ._-")`: drop the given characters at both ends
(used by the filename sanitizer). -/
def esSeparadorFin (c : Char) : Bool :=
  c = ' ' || c = '.' || c = '_' || c = '-'

def stripSeparadores (s : List Char) : List Char :=
  ((s.dropWhile esSeparadorFin).reverse.dropWhile esSeparadorFin).reverse

/-- Split a character list at every occurrence of `sep`
(Python `str.split(sep)` for a one-character separator: keeps empties). -/
def separa (sep : Char) : List Char → List (List Char)
  | [] => [[]]
  | c :: resto =>
    if c = sep then [] :: separa sep resto
    else
      match separa sep resto with
      | [] => [[c]]
      | p :: ps => (c :: p) :: ps

/-- `"\n".join(lineas)`. -/
def juntaNl : List (List Char) → List Char
  | [] => []
  | [l] => l
  | l :: ls => l ++ '\n' :: juntaNl ls

/-- Word boundary `\b` between an optional previous character and the next
character: exactly one side is a word character (`none` = string edge). -/
def limitePalabra (prev : Option Char) (c : Char) : Bool :=
  match prev with
  | none => esPalabraChar c
  | some p => esPalabraChar p != esPalabraChar c

/-- Word boundary after a match whose last character is `ult`, where `resto`
is the text following the match (`[]` = string edge). -/
def limiteTras (ult : Char) (resto : List Char) : Bool :=
  match resto with
  | [] => esPalabraChar ult
  | c :: _ => esPalabraChar ult != esPalabraChar c

/-- Helper: an alternative matched with remainder `r` and last pattern
character `ult` satisfies the trailing `\b`. -/
def tras (r : Option (List Char)) (ult : Char) : Bool :=
  match r with
  | some resto => limiteTras ult resto
  | none => false

/-! ### `PATRONES_CORTE`
`\b(Domicilio|Condici[oó]n|Punto\s*de\s*Venta|Comprobante|Per[ií]odo|Fecha|CAE|Ingresos\s*Brutos)\b`
(case-insensitive), used both as a boolean test and to split a value at its
first occurrence. -/

def corteAqui (s : List Char) : Bool :=
  tras (matchLit "domicilio".toList s) 'o' ||
  tras (((matchLit "condici".toList s).bind matchOO).bind (matchLit ['n'])) 'n' ||
  tras (((matchLit "punto".toList s).map (·.dropWhile esWS) |>.bind
        (matchLit "de".toList) |>.map (·.dropWhile esWS) |>.bind
        (matchLit "venta".toList))) 'a' ||
  tras (matchLit "comprobante".toList s) 'e' ||
  tras (((matchLit "per".toList s).bind matchII).bind (matchLit "odo".toList)) 'o' ||
  tras (matchLit "fecha".toList s) 'a' ||
  tras (matchLit "cae".toList s) 'e' ||
  tras ((matchLit "ingresos".toList s).map (·.dropWhile esWS) |>.bind
        (matchLit "brutos".toList)) 's'

/-- Index (in characters) of the leftmost `PATRONES_CORTE` match. -/
def corteIdxAux : Option Char → List Char → Option Nat
  | _, [] => none
  | prev, c :: cs =>
    if limitePalabra prev c && corteAqui (c :: cs) then some 0
    else (corteIdxAux (some c) cs).map (· + 1)

/-- `PATRONES_CORTE.search(s)` as a boolean. -/
def corteSearch (s : List Char) : Bool := (corteIdxAux none s).isSome

/-- `PATRONES_CORTE.split(s, maxsplit=1)[0]`: the text before the leftmost
match (all of `s` when there is none). -/
def antesCorte (s : List Char) : List Char :=
  match corteIdxAux none s with
  | some n => s.take n
  | none => s

/-! ### `SUFIJOS_SOCIALES`
`\b(S\.?A\.?|S\.?R\.?L\.?|SAS|SAU|SAIC|SAICyF|SAICF|U\.?T\.?E\.?)\b`
(case-insensitive).  The optional dots are expanded into explicit
variants; the trailing `\b` depends on whether the variant ends in a dot. -/

/-- All expansions of a letter word whose every letter may be followed by
an optional dot (`S\.?A\.?` and friends). -/
def conPuntos : List Char → List (List Char)
  | [] => [[]]
  | c :: rest =>
    (conPuntos rest).map (c :: ·) ++ (conPuntos rest).map (fun r => c :: '.' :: r)

def sufijoVariantes : List (List Char) :=
  conPuntos ['s', 'a'] ++ conPuntos ['s', 'r', 'l'] ++
  ["sas".toList, "sau".toList, "saic".toList, "saicyf".toList, "saicf".toList] ++
  conPuntos ['u', 't', 'e']

/-- One suffix variant matches at the head of `s` with a valid trailing `\b`. -/
def pruebaSufijo (s v : List Char) : Bool :=
  match matchLit v s, v.getLast? with
  | some resto, some ult => limiteTras ult resto
  | _, _ => false

def sufijosSearchAux : Option Char → List Char → Bool
  | _, [] => false
  | prev, c :: cs =>
    (limitePalabra prev c && sufijoVariantes.any (pruebaSufijo (c :: cs))) ||
    sufijosSearchAux (some c) cs

/-- `SUFIJOS_SOCIALES.search(s)` as a boolean. -/
def searchSufijos (s : List Char) : Bool := sufijosSearchAux none s

/-! ### `INDICIOS_DIRECCION`
`\d|,| - |\b(Domicilio|Calle|Av\.?|Avenida|Piso|Depto|Capital|Buenos\s*Aires|Provincia|CP|Código\s*Postal)\b`
(case-insensitive). -/

def direccionAqui (s : List Char) : Bool :=
  tras (matchLit "domicilio".toList s) 'o' ||
  tras (matchLit "calle".toList s) 'e' ||
  tras (matchLit "av".toList s) 'v' ||
  tras (matchLit "av.".toList s) '.' ||
  tras (matchLit "avenida".toList s) 'a' ||
  tras (matchLit "piso".toList s) 'o' ||
  tras (matchLit "depto".toList s) 'o' ||
  tras (matchLit "capital".toList s) 'l' ||
  tras ((matchLit "buenos".toList s).map (·.dropWhile esWS) |>.bind
        (matchLit "aires".toList)) 's' ||
  tras (matchLit "provincia".toList s) 'a' ||
  tras (matchLit "cp".toList s) 'p' ||
  tras ((matchLit "código".toList s).map (·.dropWhile esWS) |>.bind
        (matchLit "postal".toList)) 'l'

def direccionSearchAux : Option Char → List Char → Bool
  | _, [] => false
  | prev, c :: cs =>
    c.isDigit || c = ',' ||
    (match c :: cs with
     | ' ' :: '-' :: ' ' :: _ => true
     | _ => false) ||
    (limitePalabra prev c && direccionAqui (c :: cs)) ||
    direccionSearchAux (some c) cs

/-- `parece_direccion`. -/
def parece_direccion (s : List Char) : Bool := direccionSearchAux none s

/-! ### `INDICIOS_LAYOUT_B`
`\b(?:Comprobantes\s+asociados|C\.U\.I\.T\.|C[óo]digo\s*00\d|^B$|Factura\s+B\b)`
(case-insensitive, no MULTILINE: `^`/`$` anchor to the whole joined text). -/

/-- `\s+`: at least one whitespace character, then any further run. -/
def unOMasWS : List Char → Option (List Char)
  | c :: cs => if esWS c then some (cs.dropWhile esWS) else none
  | [] => none

def layoutBAqui (s : List Char) : Bool :=
  ((matchLit "comprobantes".toList s).bind unOMasWS |>.bind
    (matchLit "asociados".toList)).isSome ||
  (matchLit "c.u.i.t.".toList s).isSome ||
  (match ((matchLit ['c'] s).bind matchOO).bind (matchLit "digo".toList)
      |>.map (·.dropWhile esWS) |>.bind (matchLit "00".toList) with
   | some (d :: _) => d.isDigit
   | _ => false) ||
  tras ((matchLit "factura".toList s).bind unOMasWS |>.bind (matchLit ['b'])) 'b'

def indiciosLayoutBAux : Option Char → List Char → Bool
  | _, [] => false
  | prev, c :: cs =>
    (limitePalabra prev c && layoutBAqui (c :: cs)) || indiciosLayoutBAux (some c) cs

/-- `INDICIOS_LAYOUT_B.search(texto)`: the `^B$` alternative only matches the
whole text `"B"` (or `"B\n"`, as `$` also matches before a final newline). -/
def indiciosLayoutB (texto : List Char) : Bool :=
  texto = ['B'] || texto = ['B', '\n'] || indiciosLayoutBAux none texto

/-! ### Identity labels
`PATRON_ETIQUETA_INLINE` / `PATRON_ETIQUETA_SOLO`
(`Apellido\s*y\s*Nombre\s*/\s*Raz[oó]n\s*Social\s*:?\s*(.+)$`, resp. the
label-only `^...$` form) and `PATRON_RAZON_INLINE` / `PATRON_RAZON_SOLO`
(`Raz[oó]n\s*Social\s*:?\s*(.+)$`, resp. label-only). -/

/-- `Raz[oó]n\s*Social` at the head of `s`; returns the remainder. -/
def matchEtiquetaRazon (s : List Char) : Option (List Char) :=
  ((matchLit "raz".toList s).bind matchOO).bind (matchLit ['n'])
    |>.map (·.dropWhile esWS) |>.bind (matchLit "social".toList)

/-- `Apellido\s*y\s*Nombre\s*/\s*Raz[oó]n\s*Social` at the head of `s`. -/
def matchEtiquetaAfip (s : List Char) : Option (List Char) :=
  (matchLit "apellido".toList s).map (·.dropWhile esWS) |>.bind (matchLit ['y'])
    |>.map (·.dropWhile esWS) |>.bind (matchLit "nombre".toList)
    |>.map (·.dropWhile esWS) |>.bind (matchLit ['/'])
    |>.map (·.dropWhile esWS) |>.bind matchEtiquetaRazon

/-- The tail `\s*:?\s*(.+)$` of the inline label patterns applied to the
remainder `r` of a (newline-free) line: the captured group, with the
backtracking behaviour of the greedy `\s*` before a final `(.+)`. -/
def capturaResto (r : List Char) : Option (List Char) :=
  let r1 := r.dropWhile esWS
  match r1 with
  | ':' :: r2 =>
    let resto := r2.dropWhile esWS
    if resto ≠ [] then some resto
    else
      match r2.getLast? with
      | some u => some [u]
      | none => some [':']
  | _ =>
    if r1 ≠ [] then some r1
    else
      match r.getLast? with
      | some u => some [u]
      | none => none

/-- The tail `\s*:?\s*$` of the label-only patterns. -/
def finSolo (r : List Char) : Bool :=
  let r1 := r.dropWhile esWS
  match r1 with
  | ':' :: r2 => (r2.dropWhile esWS).isEmpty
  | _ => r1.isEmpty

/-- `PATRON_ETIQUETA_INLINE.search(ln)`, returning `group(1)`. -/
def searchEtiquetaInline : List Char → Option (List Char)
  | [] => none
  | c :: cs =>
    match (matchEtiquetaAfip (c :: cs)).bind capturaResto with
    | some g => some g
    | none => searchEtiquetaInline cs

/-- `PATRON_ETIQUETA_SOLO.search(ln)` (the pattern is `^...$`-anchored). -/
def matchEtiquetaSolo (s : List Char) : Bool :=
  match matchEtiquetaAfip s with
  | some r => finSolo r
  | none => false

/-- `PATRON_RAZON_INLINE.search(ln)`, returning `group(1)`. -/
def searchRazonInline : List Char → Option (List Char)
  | [] => none
  | c :: cs =>
    match (matchEtiquetaRazon (c :: cs)).bind capturaResto with
    | some g => some g
    | none => searchRazonInline cs

/-- `PATRON_RAZON_SOLO.search(ln)` (the pattern is `^...$`-anchored). -/
def matchRazonSolo (s : List Char) : Bool :=
  match matchEtiquetaRazon s with
  | some r => finSolo r
  | none => false

/-! ### Parsing utilities (`es_nombre_viable`, `cortar_en_siguientes_etiquetas`) -/

/-- The character class `[A-Za-zÁÉÍÓÚÑÜáéíóúñü]` of `es_nombre_viable`. -/
def esLetraNombre (c : Char) : Bool :=
  ('A' ≤ c && c ≤ 'Z') || ('a' ≤ c && c ≤ 'z') || letrasAcentuadas.contains c

/-- Fold step counting maximal runs of name letters of length at least 2:
the state is (current run length, runs of length ≥ 2 seen so far).  This is
the number of matches of `re.findall(r"[A-Za-zÁÉÍÓÚÑÜáéíóúñü]{2,}", s)`. -/
def tokensPaso (st : Nat × Nat) (c : Char) : Nat × Nat :=
  if esLetraNombre c then (st.1 + 1, if st.1 + 1 = 2 then st.2 + 1 else st.2)
  else (0, st.2)

def cuentaTokens (s : List Char) : Nat := (s.foldl tokensPaso (0, 0)).2

/-- `es_nombre_viable`: at least two alphabetic tokens of length ≥ 2. -/
def es_nombre_viable (s : List Char) : Bool := 2 ≤ cuentaTokens s

/-- Prefix before the first occurrence of two consecutive spaces
(`s.split("  ")[0]`). -/
def antesDobleEspacio : List Char → List Char
  | ' ' :: ' ' :: _ => []
  | c :: cs => c :: antesDobleEspacio cs
  | [] => []

/-- `cortar_en_siguientes_etiquetas`. -/
def cortar (s : List Char) : List Char :=
  let s1 := strip (antesDobleEspacio s)
  if corteSearch s1 then strip (antesCorte s1) else s1

/-! ### Layout classifier (`determinar_layout`) -/

def determinar_layout (lineas : List (List Char)) : String :=
  let texto := juntaNl lineas
  let tiene_afip := lineas.any fun ln => matchEtiquetaSolo ln || (searchEtiquetaInline ln).isSome
  let conteo_razon :=
    (lineas.filter fun ln => (searchRazonInline ln).isSome || matchRazonSolo ln).length
  let hay_indicios_b := indiciosLayoutB texto
  if tiene_afip then "AFIP_MONO"
  else if conteo_razon ≠ 0 && hay_indicios_b then "PROV_B"
  else if 2 ≤ conteo_razon then "PROV_B"
  else "UNKNOWN"

/-! ### Candidate extractors

The Python `for`/`while` loops with `break`/`continue` are translated into
structural recursions over the suffix of the line list that the loop still
has to visit; the continuation merges start at the lines following the
current one, which is exactly the tail of that suffix. -/

/-- Inner `while k < 2 and j < len(lineas)` loop of `extraer_afip_mono`
phase 1 (address-sensitive continuation merge). -/
def mergeAfip (trozo : List Char) (k : Nat) : List (List Char) → List Char
  | [] => trozo
  | ln :: resto =>
    if k < 2 then
      let nxt := strip ln
      if nxt = [] then mergeAfip trozo k resto
      else if corteSearch nxt || parece_direccion nxt then trozo
      else
        let nxt2 := cortar nxt
        if nxt2 = [] then mergeAfip trozo k resto
        else mergeAfip (strip (trozo ++ ' ' :: nxt2)) (k + 1) resto
    else trozo

/-- Phase 1 of `extraer_afip_mono`: inline label plus continuation. -/
def afipFase1 : List (List Char) → Option (List Char)
  | [] => none
  | ln :: resto =>
    match searchEtiquetaInline ln with
    | none => afipFase1 resto
    | some g =>
      let trozo := cortar (strip g)
      if searchSufijos trozo && es_nombre_viable trozo then some trozo
      else
        let t := mergeAfip trozo 0 resto
        if es_nombre_viable t then some t else afipFase1 resto

/-- The `for j in range(i+1, min(i+1+12, len))` window of `extraer_afip_mono`
phase 2, scanning at most `n` lines. -/
def ventanaAfip : List (List Char) → Nat → Option (List Char)
  | _, 0 => none
  | [], _ => none
  | ln :: resto, n + 1 =>
    let cand := strip ln
    if cand = [] || corteSearch cand || parece_direccion cand then ventanaAfip resto n
    else
      let cand2 := cortar cand
      if es_nombre_viable cand2 then some cand2 else ventanaAfip resto n

/-- Phase 2 of `extraer_afip_mono`: label-only line, then windowed scan. -/
def afipFase2 : List (List Char) → Option (List Char)
  | [] => none
  | ln :: resto =>
    if matchEtiquetaSolo ln then
      match ventanaAfip resto 12 with
      | some c => some c
      | none => afipFase2 resto
    else afipFase2 resto

def extraer_afip_mono (lineas : List (List Char)) : Option (List Char) :=
  match afipFase1 lineas with
  | some n => some n
  | none => afipFase2 lineas

/-- Inner merge loop of `extraer_razon_social` phase 1 (only stop labels
break the merge; the trimmed continuation is appended even when empty,
and `k` is always incremented). -/
def mergeRazon (trozo : List Char) (k : Nat) : List (List Char) → List Char
  | [] => trozo
  | ln :: resto =>
    if k < 2 then
      let nxt := strip ln
      if nxt = [] then mergeRazon trozo k resto
      else if corteSearch nxt then trozo
      else mergeRazon (strip (trozo ++ ' ' :: cortar nxt)) (k + 1) resto
    else trozo

/-- Phase 1 of `extraer_razon_social`: inline label plus continuation. -/
def razonFase1 : List (List Char) → Option (List Char)
  | [] => none
  | ln :: resto =>
    match searchRazonInline ln with
    | none => razonFase1 resto
    | some g =>
      let t := mergeRazon (cortar (strip g)) 0 resto
      if es_nombre_viable t then some t else razonFase1 resto

/-- Inner merge loop of `buscar_despues_de_etiqueta_flexible` (breaks when
the trimmed continuation is empty). -/
def mergeFlexible (trozo : List Char) (k : Nat) : List (List Char) → List Char
  | [] => trozo
  | ln :: resto =>
    if k < 2 then
      let nxt := strip ln
      if nxt = [] then mergeFlexible trozo k resto
      else if corteSearch nxt then trozo
      else
        let nxt2 := cortar nxt
        if nxt2 = [] then trozo
        else mergeFlexible (strip (trozo ++ ' ' :: nxt2)) (k + 1) resto
    else trozo

/-- `buscar_despues_de_etiqueta_flexible`: windowed scan over at most `n`
lines below the label, skipping blanks and stop-label lines, then merging. -/
def ventanaFlexible : List (List Char) → Nat → Option (List Char)
  | _, 0 => none
  | [], _ => none
  | ln :: resto, n + 1 =>
    let cand := strip ln
    if cand = [] then ventanaFlexible resto n
    else if corteSearch cand then ventanaFlexible resto n
    else
      let trozo := cortar cand
      if !es_nombre_viable trozo then ventanaFlexible resto n
      else
        let t := mergeFlexible trozo 0 resto
        if es_nombre_viable t then some t else ventanaFlexible resto n

def buscar_despues_de_etiqueta_flexible (resto : List (List Char)) : Option (List Char) :=
  ventanaFlexible resto 12

/-- Phase 2 of `extraer_razon_social`: label-only line, then flexible scan. -/
def razonFase2 : List (List Char) → Option (List Char)
  | [] => none
  | ln :: resto =>
    if matchRazonSolo ln then
      match buscar_despues_de_etiqueta_flexible resto with
      | some c => some c
      | none => razonFase2 resto
    else razonFase2 resto

def extraer_razon_social (lineas : List (List Char)) : Option (List Char) :=
  match razonFase1 lineas with
  | some n => some n
  | none => razonFase2 lineas

/-! ### Orchestrator (`detectar_nombre_cliente`) -/

/-- Python `a or b` on `Optional[str]` (`None` and `""` are falsy). -/
def oFalsy (a : Option (List Char)) (b : Unit → Option (List Char)) :
    Option (List Char) :=
  match a with
  | some n => if n = [] then b () else some n
  | none => b ()

/-- The candidate list of the last-resort suffix scan: every line containing
a legal-entity suffix whose `cortar` result is viable. -/
def candidatos : List (List Char) → List (List Char)
  | [] => []
  | ln :: resto =>
    if searchSufijos ln then
      let s := cortar ln
      if es_nombre_viable s then s :: candidatos resto else candidatos resto
    else candidatos resto

/-- Stable insertion into a list sorted by descending length: the new
element (which originates earlier in the scan) goes before any tie. -/
def insertaDesc (x : List Char) : List (List Char) → List (List Char)
  | [] => [x]
  | y :: ys => if y.length ≤ x.length then x :: y :: ys else y :: insertaDesc x ys

/-- `candidatos.sort(key=len, reverse=True)`: a stable descending sort by
length (Python's sort is stable; any stable sort computes the same list). -/
def ordenaDesc : List (List Char) → List (List Char)
  | [] => []
  | x :: xs => insertaDesc x (ordenaDesc xs)

/-- Lines 279-290 of the source: the last-resort suffix scan. -/
def recursoFinal (lineas : List (List Char)) : Option (List Char) :=
  match ordenaDesc (candidatos lineas) with
  | [] => none
  | c :: _ => some c

/-- `lineas = [ln.strip() for ln in texto.split("\n")]`. -/
def lineasDe (texto : List Char) : List (List Char) :=
  (separa '\n' texto).map strip

def detectar_nombre_cliente (texto : List Char) : Option (List Char) :=
  let lineas := lineasDe texto
  let layout := determinar_layout lineas
  let nombre :=
    if layout = "AFIP_MONO" then
      oFalsy (extraer_afip_mono lineas) fun _ => extraer_razon_social lineas
    else if layout = "PROV_B" then
      oFalsy (extraer_razon_social lineas) fun _ => extraer_afip_mono lineas
    else
      oFalsy (extraer_afip_mono lineas) fun _ => extraer_razon_social lineas
  match nombre with
  | some n => if n ≠ [] && es_nombre_viable n then some n else recursoFinal lineas
  | none => recursoFinal lineas

/-! ### Date extractor (`detectar_fecha_emision`)

The four patterns, in the order of the `patrones` list of the source:
`Fecha\s*[:\-]?\s*(\d{2}/\d{2}/\d{4})`,
`Fecha\s*de\s*Emisi[oó]n\s*[:\-]?\s*(\d{2}/\d{2}/\d{4})`,
`\b(\d{2}/\d{2}/\d{4})\b`, `\b(\d{2}/\d{2}/\d{2})\b` (first two
case-insensitive).  `\d` is modelled as an ASCII digit. -/

/-- Shape of a `\d{2}/\d{2}/\d{4}` capture. -/
def esFechaLarga : List Char → Bool
  | [a, b, '/', c, d, '/', e, f, g, h] =>
    a.isDigit && b.isDigit && c.isDigit && d.isDigit &&
    e.isDigit && f.isDigit && g.isDigit && h.isDigit
  | _ => false

/-- Shape of a `\d{2}/\d{2}/\d{2}` capture. -/
def esFechaCorta : List Char → Bool
  | [a, b, '/', c, d, '/', e, f] =>
    a.isDigit && b.isDigit && c.isDigit && d.isDigit && e.isDigit && f.isDigit
  | _ => false

/-- The tail `\s*[:\-]?\s*(\d{2}/\d{2}/\d{4})` of the two labelled date
patterns, applied to the remainder `r` after the label. -/
def trasEtiquetaFecha (r : List Char) : Option (List Char) :=
  let r1 := r.dropWhile esWS
  let r2 :=
    match r1 with
    | c :: resto => if c = ':' || c = '-' then resto else r1
    | [] => r1
  let r3 := r2.dropWhile esWS
  let f := r3.take 10
  if esFechaLarga f then some f else none

/-- Pattern 1: generic `Fecha` label (leftmost match of the whole text). -/
def buscaFechaGenerica : List Char → Option (List Char)
  | [] => none
  | c :: cs =>
    match (matchLit "fecha".toList (c :: cs)).bind trasEtiquetaFecha with
    | some f => some f
    | none => buscaFechaGenerica cs

/-- Pattern 2: `Fecha de Emisión` label. -/
def buscaFechaEmision : List Char → Option (List Char)
  | [] => none
  | c :: cs =>
    match ((matchLit "fecha".toList (c :: cs)).map (·.dropWhile esWS)
        |>.bind (matchLit "de".toList) |>.map (·.dropWhile esWS)
        |>.bind (matchLit "emisi".toList) |>.bind matchOO
        |>.bind (matchLit ['n'])).bind trasEtiquetaFecha with
    | some f => some f
    | none => buscaFechaEmision cs

/-- Word boundary after a match ending in a digit. -/
def trasDigito : List Char → Bool
  | [] => true
  | c :: _ => !esPalabraChar c

/-- Pattern 3: free-standing `\b\d{2}/\d{2}/\d{4}\b`. -/
def buscaFechaLargaAux : Option Char → List Char → Option (List Char)
  | _, [] => none
  | prev, c :: cs =>
    let f := (c :: cs).take 10
    if limitePalabra prev c && esFechaLarga f && trasDigito ((c :: cs).drop 10) then
      some f
    else buscaFechaLargaAux (some c) cs

def buscaFechaLarga (texto : List Char) : Option (List Char) :=
  buscaFechaLargaAux none texto

/-- Pattern 4: free-standing `\b\d{2}/\d{2}/\d{2}\b`. -/
def buscaFechaCortaAux : Option Char → List Char → Option (List Char)
  | _, [] => none
  | prev, c :: cs =>
    let f := (c :: cs).take 8
    if limitePalabra prev c && esFechaCorta f && trasDigito ((c :: cs).drop 8) then
      some f
    else buscaFechaCortaAux (some c) cs

def buscaFechaCorta (texto : List Char) : Option (List Char) :=
  buscaFechaCortaAux none texto

def concatLista : List (List Char) → List Char :=
  fun l => l.foldr (· ++ ·) []

/-- Normalization of a captured date: split on `/`, prefix a 2-character
year with `"20"`, then concatenate the parts in reversed order. -/
def normalizarFecha (fecha : List Char) : List Char :=
  match (separa '/' fecha).reverse with
  | [] => []
  | ult :: resto => (if ult.length = 2 then ['2', '0'] ++ ult else ult) ++ concatLista resto

def detectar_fecha_emision (texto : List Char) : Option (List Char) :=
  match buscaFechaGenerica texto with
  | some f => some (normalizarFecha f)
  | none =>
  match buscaFechaEmision texto with
  | some f => some (normalizarFecha f)
  | none =>
  match buscaFechaLarga texto with
  | some f => some (normalizarFecha f)
  | none =>
  match buscaFechaCorta texto with
  | some f => some (normalizarFecha f)
  | none => none

/-! ### Filename sanitizer (`sanear_para_nombre_archivo`) -/

/-- Transliteration (`unidecode`) modelled over the program's target
locale: ASCII characters are unchanged, Spanish diacritics map to their
base letter, any other non-ASCII character is dropped. -/
def unidecodeChar (c : Char) : List Char :=
  if c.toNat ≤ 127 then [c]
  else if c = 'á' then ['a'] else if c = 'é' then ['e'] else if c = 'í' then ['i']
  else if c = 'ó' then ['o'] else if c = 'ú' then ['u'] else if c = 'ñ' then ['n']
  else if c = 'ü' then ['u']
  else if c = 'Á' then ['A'] else if c = 'É' then ['E'] else if c = 'Í' then ['I']
  else if c = 'Ó' then ['O'] else if c = 'Ú' then ['U'] else if c = 'Ñ' then ['N']
  else if c = 'Ü' then ['U']
  else []

/-- The class kept by `re.sub(r"[^\w\s\-\.\&]", "", ...)`. -/
def permitidoSanear (c : Char) : Bool :=
  esPalabraChar c || esWS c || c = '-' || c = '.' || c = '&'

/-- Step of the whitespace collapse: the state is the output so far
(reversed) and whether the previous character was whitespace. -/
def colapsaPaso (st : List Char × Bool) (c : Char) : List Char × Bool :=
  if esWS c then (if st.2 then st else (' ' :: st.1, true)) else (c :: st.1, false)

/-- `re.sub(r"\s+", " ", s)`: collapse each whitespace run to one space. -/
def colapsaWS (s : List Char) : List Char :=
  (s.foldl colapsaPaso ([], false)).1.reverse

def sanear_para_nombre_archivo (nombre : List Char) (largo_max : Nat) : List Char :=
  let n1 := nombre.flatMap unidecodeChar
  let n2 := n1.filter permitidoSanear
  let n3 := strip (colapsaWS n2)
  stripSeparadores (n3.take largo_max)

/-! ### Paths, collision avoidance, and the renaming core -/

/-- Index of the last occurrence of `c` in `l`. -/
def ultimoIdx (c : Char) (l : List Char) : Option Nat :=
  (l.reverse.findIdx? (· = c)).map (fun k => l.length - 1 - k)

/-- `os.path.splitext`: split off the extension at the last dot of the
basename, unless every character before that dot in the basename is a dot. -/
def splitext (p : List Char) : List Char × List Char :=
  match ultimoIdx '.' p with
  | none => (p, [])
  | some di =>
    let siSucc :=
      match ultimoIdx '/' p with
      | some s => s + 1
      | none => 0
    if siSucc ≤ di then
      if ((p.drop siSucc).take (di - siSucc)).any (· ≠ '.') then (p.take di, p.drop di)
      else (p, [])
    else (p, [])

def basename (p : List Char) : List Char :=
  match ultimoIdx '/' p with
  | some s => p.drop (s + 1)
  | none => p

def dirname (p : List Char) : List Char :=
  match ultimoIdx '/' p with
  | some s => p.take s
  | none => []

/-- `os.path.join(a, b)` for the shapes the program uses. -/
def unePath (a b : List Char) : List Char :=
  if a = [] then b
  else if a.getLast? = some '/' then a ++ b
  else a ++ '/' :: b

/-- `f"{base_sin_ext}({i}){ext}"`, with `str(i)` as `Nat.repr`. -/
def reprL (i : Nat) : List Char := (Nat.repr i).toList

def candidato (base ext : List Char) (i : Nat) : List Char :=
  base ++ '(' :: (reprL i ++ ')' :: ext)

/-- The `while os.path.exists(destino_final)` loop, over a filesystem
modelled as the (finite) list `fs` of existing paths.  The loop of the
source is unbounded; here it carries fuel `fs.length + 2`, which theorem
`bucle_encuentra_libre` below proves is never exhausted. -/
def bucleColisiones (fs : List (List Char)) (base ext : List Char) :
    Nat → Nat → List Char → List Char
  | 0, _, destino => destino
  | fuel + 1, i, destino =>
    if destino ∈ fs then bucleColisiones fs base ext fuel (i + 1) (candidato base ext i)
    else destino

/-- Lines 369-376 of the source: collision avoidance. -/
def evitarColisiones (fs : List (List Char)) (destino : List Char) : List Char :=
  let be := splitext destino
  bucleColisiones fs be.1 be.2 (fs.length + 2) 2 destino

/-- `construir_nuevo_nombre` (defined in the source but never called by
`renombrar_pdf`): raises when the client name sanitizes to nothing. -/
def construir_nuevo_nombre (ruta_pdf : List Char) (cliente : List Char) :
    Except String (List Char) :=
  let be := splitext (basename ruta_pdf)
  let seguro := sanear_para_nombre_archivo cliente 80
  if seguro = [] then Except.error "No se pudo sanear el nombre del cliente."
  else
    let nuevo_base :=
      if decide ((seguro.map minuscula) <:+: (be.1.map minuscula)) then be.1
      else be.1 ++ " - ".toList ++ seguro
    Except.ok (unePath (dirname ruta_pdf) (nuevo_base ++ be.2))

/-- The date token actually used: the detected date, or the literal
`"SINFECHA"` placeholder when detection fails (or yields a falsy value). -/
def fechaONada (texto : List Char) : List Char :=
  match detectar_fecha_emision texto with
  | some f => if f = [] then "SINFECHA".toList else f
  | none => "SINFECHA".toList

/-- The pure core of `renombrar_pdf` (lines 343-376): text already
extracted, the filesystem modelled as the list `fs` of existing paths, the
configuration at its defaults (`LIMITE_NOMBRE_CLIENTE = 80`,
`FORMATO_NOMBRE_ARCHIVO = "YYYYMMDD_NOMBRE_CLIENTE"`). -/
def renombrar_nucleo (texto base_original ruta_salida : List Char)
    (fs : List (List Char)) : Except String (List Char) :=
  match detectar_nombre_cliente texto with
  | none => Except.error "No se encontró el nombre del cliente en el PDF."
  | some cliente =>
    if cliente = [] then Except.error "No se encontró el nombre del cliente en el PDF."
    else
      let fecha := fechaONada texto
      let cliente_saneado :=
        (sanear_para_nombre_archivo cliente 80).map fun c => if c = ' ' then '_' else c
      let nuevo_nombre :=
        fecha ++ '_' :: (cliente_saneado ++ '_' :: (base_original ++ ".pdf".toList))
      let destino := unePath ruta_salida nuevo_nombre
      Except.ok (evitarColisiones fs destino)

/-! ## Helper lemmas -/

theorem viable_ne_nil {n : List Char} (h : es_nombre_viable n = true) : n ≠ [] := by
  intro e
  subst e
  simp [es_nombre_viable, cuentaTokens] at h

theorem ventanaFlexible_viable :
    ∀ (fuel : Nat) (ls : List (List Char)) (n : List Char),
      ventanaFlexible ls fuel = some n → es_nombre_viable n = true := by
  intro fuel
  induction fuel with
  | zero =>
    intro ls n h
    cases ls <;> simp [ventanaFlexible] at h
  | succ m ih =>
    intro ls n h
    cases ls with
    | nil => simp [ventanaFlexible] at h
    | cons ln resto =>
      rw [ventanaFlexible] at h
      dsimp only at h
      split at h
      · exact ih resto n h
      · split at h
        · exact ih resto n h
        · split at h
          · exact ih resto n h
          · split at h
            · cases h
              rename_i ht
              exact ht
            · exact ih resto n h

theorem razonFase1_viable :
    ∀ (ls : List (List Char)) (n : List Char),
      razonFase1 ls = some n → es_nombre_viable n = true := by
  intro ls
  induction ls with
  | nil => simp [razonFase1]
  | cons ln resto ih =>
    intro n h
    rw [razonFase1] at h
    split at h
    · exact ih n h
    · dsimp only at h
      split at h
      · cases h
        rename_i ht
        exact ht
      · exact ih n h

theorem razonFase2_viable :
    ∀ (ls : List (List Char)) (n : List Char),
      razonFase2 ls = some n → es_nombre_viable n = true := by
  intro ls
  induction ls with
  | nil => simp [razonFase2]
  | cons ln resto ih =>
    intro n h
    rw [razonFase2] at h
    split at h
    · split at h
      · cases h
        rename_i hv
        exact ventanaFlexible_viable 12 resto n hv
      · exact ih n h
    · exact ih n h

theorem extraer_razon_social_viable {ls : List (List Char)} {n : List Char}
    (h : extraer_razon_social ls = some n) : es_nombre_viable n = true := by
  rw [extraer_razon_social] at h
  split at h
  · cases h
    rename_i m h1
    exact razonFase1_viable ls n h1
  · exact razonFase2_viable ls n h

theorem mem_insertaDesc {a x : List Char} :
    ∀ {l : List (List Char)}, a ∈ insertaDesc x l ↔ a = x ∨ a ∈ l := by
  intro l
  induction l with
  | nil => simp [insertaDesc]
  | cons y ys ih =>
    rw [insertaDesc]
    by_cases hc : y.length ≤ x.length
    · rw [if_pos hc]
      simp [List.mem_cons]
    · rw [if_neg hc]
      simp only [List.mem_cons, ih]
      tauto

theorem mem_ordenaDesc {a : List Char} :
    ∀ {l : List (List Char)}, a ∈ ordenaDesc l ↔ a ∈ l := by
  intro l
  induction l with
  | nil => simp [ordenaDesc]
  | cons x xs ih =>
    rw [ordenaDesc]
    rw [mem_insertaDesc]
    simp [ih]

theorem candidatos_viable :
    ∀ (ls : List (List Char)) (c : List Char),
      c ∈ candidatos ls → es_nombre_viable c = true := by
  intro ls
  induction ls with
  | nil => simp [candidatos]
  | cons ln resto ih =>
    intro c hc
    rw [candidatos] at hc
    by_cases h1 : searchSufijos ln = true
    · rw [if_pos h1] at hc
      by_cases h2 : es_nombre_viable (cortar ln) = true
      · rw [if_pos h2] at hc
        rcases List.mem_cons.1 hc with he | ht
        · subst he; exact h2
        · exact ih c ht
      · rw [if_neg h2] at hc
        exact ih c hc
    · rw [if_neg h1] at hc
      exact ih c hc

theorem recursoFinal_viable {ls : List (List Char)} {r : List Char}
    (h : recursoFinal ls = some r) : es_nombre_viable r = true := by
  rw [recursoFinal] at h
  cases ho : ordenaDesc (candidatos ls) with
  | nil => rw [ho] at h; cases h
  | cons c rest =>
    rw [ho] at h
    cases h
    have : r ∈ ordenaDesc (candidatos ls) := by rw [ho]; exact List.mem_cons_self _ _
    exact candidatos_viable ls r (mem_ordenaDesc.1 this)

/-- Every name produced by the whole pipeline is viable. -/
theorem detectar_viable :
    ∀ (texto : List Char) (s : List Char),
      detectar_nombre_cliente texto = some s → es_nombre_viable s = true := by
  intro texto s h
  rw [detectar_nombre_cliente] at h
  set lineas := lineasDe texto with hl
  set nombre :=
    (if determinar_layout lineas = "AFIP_MONO" then
      oFalsy (extraer_afip_mono lineas) fun _ => extraer_razon_social lineas
    else if determinar_layout lineas = "PROV_B" then
      oFalsy (extraer_razon_social lineas) fun _ => extraer_afip_mono lineas
    else
      oFalsy (extraer_afip_mono lineas) fun _ => extraer_razon_social lineas) with hn
  clear_value nombre
  cases nombre with
  | none => exact recursoFinal_viable h
  | some n =>
    dsimp only at h
    split at h
    · cases h
      rename_i hc
      rw [Bool.and_eq_true] at hc
      exact hc.2
    · exact recursoFinal_viable h

theorem afipFase1_none :
    ∀ (ls : List (List Char)), (∀ ln ∈ ls, searchEtiquetaInline ln = none) →
      afipFase1 ls = none := by
  intro ls
  induction ls with
  | nil => intro _; rfl
  | cons ln resto ih =>
    intro h
    rw [afipFase1]
    rw [h ln (List.mem_cons_self _ _)]
    exact ih fun x hx => h x (List.mem_cons_of_mem _ hx)

theorem afipFase2_none :
    ∀ (ls : List (List Char)), (∀ ln ∈ ls, matchEtiquetaSolo ln = false) →
      afipFase2 ls = none := by
  intro ls
  induction ls with
  | nil => intro _; rfl
  | cons ln resto ih =>
    intro h
    rw [afipFase2]
    rw [h ln (List.mem_cons_self _ _)]
    simp only [Bool.false_eq_true, if_false]
    exact ih fun x hx => h x (List.mem_cons_of_mem _ hx)

/-- A `PROV_B` classification implies that no line matches the AFIP
identity label, in either form. -/
theorem provB_sin_etiqueta_afip {ls : List (List Char)}
    (h : determinar_layout ls = "PROV_B") :
    ∀ ln ∈ ls, matchEtiquetaSolo ln = false ∧ searchEtiquetaInline ln = none := by
  rw [determinar_layout] at h
  by_cases ha :
      (ls.any fun ln => matchEtiquetaSolo ln || (searchEtiquetaInline ln).isSome) = true
  · rw [if_pos ha] at h
    exact absurd h (by decide)
  · rw [Bool.not_eq_true] at ha
    have ha2 := List.any_eq_false.1 ha
    intro ln hln
    have hc := ha2 ln hln
    rw [Bool.not_eq_true, Bool.or_eq_false_iff] at hc
    refine ⟨hc.1, ?_⟩
    cases hs : searchEtiquetaInline ln with
    | none => rfl
    | some g =>
      have := hc.2
      rw [hs] at this
      simp at this

theorem extraer_afip_mono_none {ls : List (List Char)}
    (h : ∀ ln ∈ ls, matchEtiquetaSolo ln = false ∧ searchEtiquetaInline ln = none) :
    extraer_afip_mono ls = none := by
  rw [extraer_afip_mono]
  rw [afipFase1_none ls fun ln hln => (h ln hln).2]
  exact afipFase2_none ls fun ln hln => (h ln hln).1

/-! ## Claims -/

/-- C5: whenever the identity-extraction pipeline (layout dispatch plus
last-resort suffix scan) returns a non-absent result, that result is a
viable name — it contains at least two alphabetic tokens (diacritics
included) of length ≥ 2 — and in particular it is never the empty string:
absence is always signalled by `none`, not by `""`. -/
theorem c5_resultado_siempre_viable (texto s : List Char)
    (h : detectar_nombre_cliente texto = some s) :
    es_nombre_viable s = true ∧ s ≠ [] := by
  have hv := detectar_viable texto s h
  exact ⟨hv, viable_ne_nil hv⟩

theorem c5_resultado_siempre_viable_witness :
    es_nombre_viable "JUAN PEREZ".toList = true ∧ "JUAN PEREZ".toList ≠ [] :=
  c5_resultado_siempre_viable
    "Apellido y Nombre / Razón Social: JUAN PEREZ".toList
    "JUAN PEREZ".toList (by decide)

/-- C1: for every text classified `PROV_B` (SecondaryLabeled), the
orchestrator's result before the last-resort suffix scan is exactly the
SecondaryLabeled extractor's result: the PrimaryLabeled (AFIP) extractor
provably returns `none` on such a line sequence (its fallback invocation in
the source is inert), so extraction never falls back to it. -/
theorem c1_prov_b_solo_secundario (texto : List Char)
    (h : determinar_layout (lineasDe texto) = "PROV_B") :
    extraer_afip_mono (lineasDe texto) = none ∧
    detectar_nombre_cliente texto =
      (match extraer_razon_social (lineasDe texto) with
       | some n => some n
       | none => recursoFinal (lineasDe texto)) := by
  have hafip := extraer_afip_mono_none (provB_sin_etiqueta_afip h)
  refine ⟨hafip, ?_⟩
  rw [detectar_nombre_cliente]
  rw [h, if_neg (by decide : ¬("PROV_B" : String) = "AFIP_MONO"),
      if_pos (rfl : ("PROV_B" : String) = "PROV_B")]
  cases hr : extraer_razon_social (lineasDe texto) with
  | none =>
    rw [oFalsy, hafip]
  | some n =>
    have hv := extraer_razon_social_viable hr
    have hne := viable_ne_nil hv
    rw [oFalsy, if_neg hne]
    have hb : (decide (n ≠ []) && es_nombre_viable n) = true := by
      rw [Bool.and_eq_true]
      exact ⟨decide_eq_true hne, hv⟩
    dsimp only
    rw [if_pos hb]

theorem c1_prov_b_solo_secundario_witness :
    determinar_layout (lineasDe "Razón Social: Acme Gomez\nC.U.I.T. 30-123".toList) =
      "PROV_B" ∧
    extraer_afip_mono (lineasDe "Razón Social: Acme Gomez\nC.U.I.T. 30-123".toList) =
      none :=
  ⟨by decide, (c1_prov_b_solo_secundario _ (by decide)).1⟩

/-- C2 (counterexample): on the line sequence `["Razón Social:", "",
"Domicilio: Calle Falsa 123", "ACME S.A."]` the SecondaryLabeled extractor
does NOT return `"ACME S.A."`: it returns `none`, because `"ACME S.A."`
has only one alphabetic token of length ≥ 2 and fails the viability
check. -/
theorem c2_contraejemplo :
    extraer_razon_social
      ["Razón Social:".toList, [], "Domicilio: Calle Falsa 123".toList,
       "ACME S.A.".toList] = none ∧
    ¬ extraer_razon_social
      ["Razón Social:".toList, [], "Domicilio: Calle Falsa 123".toList,
       "ACME S.A.".toList] = some "ACME S.A.".toList := by
  constructor
  · decide
  · decide

/-- C2 (amended): the SecondaryLabeled extractor does skip the stop-labeled
and the address line, but rejects `"ACME S.A."` as non-viable (fewer than
two alphabetic tokens of length ≥ 2) and returns absence; with a final line
whose name is viable, e.g. `"ACME SRL"`, it skips those lines and returns
that line. -/
theorem c2_enmendado :
    extraer_razon_social
      ["Razón Social:".toList, [], "Domicilio: Calle Falsa 123".toList,
       "ACME S.A.".toList] = none ∧
    es_nombre_viable "ACME S.A.".toList = false ∧
    extraer_razon_social
      ["Razón Social:".toList, [], "Domicilio: Calle Falsa 123".toList,
       "ACME SRL".toList] = some "ACME SRL".toList := by
  refine ⟨by decide, by decide, by decide⟩

theorem insertaDesc_ne_nil (x : List Char) (l : List (List Char)) :
    insertaDesc x l ≠ [] := by
  cases l with
  | nil => simp [insertaDesc]
  | cons y ys =>
    rw [insertaDesc]
    split <;> simp

theorem ordenaDesc_eq_nil_iff {l : List (List Char)} :
    ordenaDesc l = [] ↔ l = [] := by
  cases l with
  | nil => simp [ordenaDesc]
  | cons x xs =>
    rw [ordenaDesc]
    simp only [List.cons_ne_nil, iff_false]
    exact insertaDesc_ne_nil x (ordenaDesc xs)

/-- The head of the stable descending-by-length sort is the longest
element, and among elements of maximal length the first one of the original
list (expressed through `find?`). -/
theorem ordenaDesc_head_spec :
    ∀ (l : List (List Char)) (r : List Char),
      (ordenaDesc l).head? = some r →
      r ∈ l ∧ (∀ c ∈ l, c.length ≤ r.length) ∧
      l.find? (fun c => decide (r.length ≤ c.length)) = some r := by
  intro l
  induction l with
  | nil => intro r h; simp [ordenaDesc] at h
  | cons x xs ih =>
    intro r h
    rw [ordenaDesc] at h
    cases ho : ordenaDesc xs with
    | nil =>
      have hxs : xs = [] := ordenaDesc_eq_nil_iff.1 ho
      rw [ho, insertaDesc] at h
      simp only [List.head?_cons, Option.some.injEq] at h
      subst h
      subst hxs
      refine ⟨List.mem_cons_self _ _, ?_, ?_⟩
      · intro c hc
        rcases List.mem_cons.1 hc with rfl | hcx
        · exact le_refl _
        · cases hcx
      · rw [List.find?_cons_of_pos _ (by simp)]
    | cons y ys =>
      rw [ho, insertaDesc] at h
      obtain ⟨hyx, hymax, hyfind⟩ := ih y (by rw [ho]; rfl)
      by_cases hc : y.length ≤ x.length
      · rw [if_pos hc] at h
        simp only [List.head?_cons, Option.some.injEq] at h
        subst h
        refine ⟨List.mem_cons_self _ _, ?_, ?_⟩
        · intro c hcm
          rcases List.mem_cons.1 hcm with rfl | hcx
          · exact le_refl _
          · exact le_trans (hymax c hcx) hc
        · rw [List.find?_cons_of_pos _ (by simp)]
      · rw [if_neg hc] at h
        simp only [List.head?_cons, Option.some.injEq] at h
        subst h
        have hxy : x.length < y.length := Nat.lt_of_not_le fun hle => hc hle
        refine ⟨List.mem_cons_of_mem _ hyx, ?_, ?_⟩
        · intro c hcm
          rcases List.mem_cons.1 hcm with rfl | hcx
          · exact Nat.le_of_lt hxy
          · exact hymax c hcx
        · rw [List.find?_cons_of_neg _ (by simpa using Nat.not_le.2 hxy)]
          exact hyfind

/-- C6: when both structured extractors fail and at least one line contains
a legal-entity suffix whose trimmed form is viable, the pipeline returns
the longest viable trimmed candidate line; among candidates of equal
length, the first in document order (it is the first candidate of maximal
length found by `find?`). -/
theorem c6_recurso_final_mas_largo (texto : List Char)
    (h1 : extraer_afip_mono (lineasDe texto) = none)
    (h2 : extraer_razon_social (lineasDe texto) = none)
    (h3 : candidatos (lineasDe texto) ≠ []) :
    ∃ r, detectar_nombre_cliente texto = some r ∧
      r ∈ candidatos (lineasDe texto) ∧
      (∀ c ∈ candidatos (lineasDe texto), c.length ≤ r.length) ∧
      (candidatos (lineasDe texto)).find?
        (fun c => decide (r.length ≤ c.length)) = some r := by
  have hnombre : detectar_nombre_cliente texto = recursoFinal (lineasDe texto) := by
    rw [detectar_nombre_cliente]
    simp only [h1, h2, oFalsy, ite_self]
  cases ho : ordenaDesc (candidatos (lineasDe texto)) with
  | nil => exact absurd (ordenaDesc_eq_nil_iff.1 ho) h3
  | cons c rest =>
    obtain ⟨hmem, hmax, hfind⟩ :=
      ordenaDesc_head_spec (candidatos (lineasDe texto)) c (by rw [ho]; rfl)
    refine ⟨c, ?_, hmem, hmax, hfind⟩
    rw [hnombre, recursoFinal, ho]

theorem c6_recurso_final_mas_largo_witness :
    ∃ r, detectar_nombre_cliente "Alfa Beta SA\nGamma SRL".toList = some r ∧
      r ∈ candidatos (lineasDe "Alfa Beta SA\nGamma SRL".toList) ∧
      (∀ c ∈ candidatos (lineasDe "Alfa Beta SA\nGamma SRL".toList),
        c.length ≤ r.length) ∧
      (candidatos (lineasDe "Alfa Beta SA\nGamma SRL".toList)).find?
        (fun c => decide (r.length ≤ c.length)) = some r :=
  c6_recurso_final_mas_largo "Alfa Beta SA\nGamma SRL".toList
    (by decide) (by decide) (by decide)

/-- C3 (counterexample): for a text containing both a generic-date-labeled
date and an issuance-date-labeled date, the code returns the
generic-labeled one (`"20200101"`), not the issuance-labeled one
(`"20240305"`) as the claim states: the generic `Fecha` pattern is first in
the source's pattern list. -/
theorem c3_contraejemplo :
    detectar_fecha_emision
      "Fecha: 01/01/2020\nFecha de Emisión: 05/03/2024".toList =
      some "20200101".toList ∧
    ¬ detectar_fecha_emision
      "Fecha: 01/01/2020\nFecha de Emisión: 05/03/2024".toList =
      some "20240305".toList := by
  refine ⟨by decide, by decide⟩

/-- C3 (amended): the date extractor applies its patterns in the order:
generic date label first, then explicit issuance-date label, then
free-standing dd/mm/yyyy, then free-standing dd/mm/yy; the first pattern in
that order that matches anywhere in the whole text wins, taking that
pattern's leftmost match; in particular, for a text containing both a
generic-date-labeled date and an issuance-date-labeled date, the
generic-date-labeled date is returned. -/
theorem c3_enmendado :
    (∀ texto f, buscaFechaGenerica texto = some f →
        detectar_fecha_emision texto = some (normalizarFecha f)) ∧
    (∀ texto f, buscaFechaGenerica texto = none →
        buscaFechaEmision texto = some f →
        detectar_fecha_emision texto = some (normalizarFecha f)) ∧
    (∀ texto f, buscaFechaGenerica texto = none →
        buscaFechaEmision texto = none →
        buscaFechaLarga texto = some f →
        detectar_fecha_emision texto = some (normalizarFecha f)) ∧
    (∀ texto f, buscaFechaGenerica texto = none →
        buscaFechaEmision texto = none →
        buscaFechaLarga texto = none →
        buscaFechaCorta texto = some f →
        detectar_fecha_emision texto = some (normalizarFecha f)) ∧
    detectar_fecha_emision
      "Fecha: 01/01/2020\nFecha de Emisión: 05/03/2024".toList =
      some "20200101".toList := by
  refine ⟨?_, ?_, ?_, ?_, by decide⟩
  · intro texto f hf
    rw [detectar_fecha_emision, hf]
  · intro texto f h1 hf
    rw [detectar_fecha_emision, h1, hf]
  · intro texto f h1 h2 hf
    rw [detectar_fecha_emision, h1, h2, hf]
  · intro texto f h1 h2 h3 hf
    rw [detectar_fecha_emision, h1, h2, h3, hf]

theorem c3_enmendado_witness :
    detectar_fecha_emision "Fecha de Emisión: 05/03/2024".toList =
      some (normalizarFecha "05/03/2024".toList) :=
  c3_enmendado.2.1 "Fecha de Emisión: 05/03/2024".toList "05/03/2024".toList
    (by decide) (by decide)

theorem trasEtiquetaFecha_shape {r f : List Char}
    (h : trasEtiquetaFecha r = some f) : esFechaLarga f = true := by
  rw [trasEtiquetaFecha] at h
  split at h
  · cases h
    rename_i hs
    exact hs
  · cases h

theorem buscaFechaGenerica_shape :
    ∀ (texto f : List Char), buscaFechaGenerica texto = some f →
      esFechaLarga f = true := by
  intro texto
  induction texto with
  | nil => simp [buscaFechaGenerica]
  | cons c cs ih =>
    intro f h
    rw [buscaFechaGenerica] at h
    split at h
    · cases h
      rename_i hf
      rcases Option.bind_eq_some.1 hf with ⟨r, _, ht⟩
      exact trasEtiquetaFecha_shape ht
    · exact ih f h

set_option maxHeartbeats 1000000 in
theorem buscaFechaEmision_shape :
    ∀ (texto f : List Char), buscaFechaEmision texto = some f →
      esFechaLarga f = true := by
  intro texto
  induction texto with
  | nil => simp [buscaFechaEmision]
  | cons c cs ih =>
    intro f h
    rw [buscaFechaEmision] at h
    split at h
    · cases h
      rename_i hf
      rcases Option.bind_eq_some.1 hf with ⟨r, _, ht⟩
      exact trasEtiquetaFecha_shape ht
    · exact ih f h

theorem buscaFechaLargaAux_shape :
    ∀ (texto : List Char) (prev : Option Char) (f : List Char),
      buscaFechaLargaAux prev texto = some f → esFechaLarga f = true := by
  intro texto
  induction texto with
  | nil => intro prev f h; simp [buscaFechaLargaAux] at h
  | cons c cs ih =>
    intro prev f h
    rw [buscaFechaLargaAux] at h
    split at h
    · cases h
      rename_i hcond
      rw [Bool.and_eq_true, Bool.and_eq_true] at hcond
      exact hcond.1.2
    · exact ih (some c) f h

theorem buscaFechaCortaAux_shape :
    ∀ (texto : List Char) (prev : Option Char) (f : List Char),
      buscaFechaCortaAux prev texto = some f → esFechaCorta f = true := by
  intro texto
  induction texto with
  | nil => intro prev f h; simp [buscaFechaCortaAux] at h
  | cons c cs ih =>
    intro prev f h
    rw [buscaFechaCortaAux] at h
    split at h
    · cases h
      rename_i hcond
      rw [Bool.and_eq_true, Bool.and_eq_true] at hcond
      exact hcond.1.2
    · exact ih (some c) f h

theorem digit_no_slash {c : Char} (h : c.isDigit = true) : ¬(c = '/') := by
  intro e
  rw [e] at h
  exact absurd h (by decide)

theorem normalizarFecha_larga {f : List Char} (h : esFechaLarga f = true) :
    (normalizarFecha f).length = 8 ∧ (normalizarFecha f).all Char.isDigit = true := by
  unfold esFechaLarga at h
  split at h
  · rename_i a b c d e f1 g h1
    simp only [Bool.and_eq_true] at h
    obtain ⟨⟨⟨⟨⟨⟨⟨ha, hb⟩, hc⟩, hd⟩, he⟩, hf1⟩, hg⟩, hh1⟩ := h
    have na := digit_no_slash ha
    have nb := digit_no_slash hb
    have nc := digit_no_slash hc
    have nd := digit_no_slash hd
    have nee := digit_no_slash he
    have nf := digit_no_slash hf1
    have ng := digit_no_slash hg
    have nh := digit_no_slash hh1
    simp [normalizarFecha, separa, concatLista, na, nb, nc, nd, nee, nf, ng, nh,
      ha, hb, hc, hd, he, hf1, hg, hh1]
  · cases h

theorem normalizarFecha_corta {f : List Char} (h : esFechaCorta f = true) :
    (normalizarFecha f).length = 8 ∧ (normalizarFecha f).all Char.isDigit = true := by
  unfold esFechaCorta at h
  split at h
  · rename_i a b c d e f1
    simp only [Bool.and_eq_true] at h
    obtain ⟨⟨⟨⟨⟨ha, hb⟩, hc⟩, hd⟩, he⟩, hf1⟩ := h
    have na := digit_no_slash ha
    have nb := digit_no_slash hb
    have nc := digit_no_slash hc
    have nd := digit_no_slash hd
    have nee := digit_no_slash he
    have nf := digit_no_slash hf1
    simp [normalizarFecha, separa, concatLista, na, nb, nc, nd, nee, nf,
      ha, hb, hc, hd, he, hf1]
  · cases h

/-- C9: the date extractor reorders a matched day/month/year date to
year-month-day with no separators, expanding a 2-digit year with `"20"`:
`"05/03/2024"` and `"05/03/24"` both normalize to `"20240305"`, and every
non-absent result is an 8-character all-digit string. -/
theorem c9_normalizacion_fecha :
    detectar_fecha_emision "05/03/2024".toList = some "20240305".toList ∧
    detectar_fecha_emision "05/03/24".toList = some "20240305".toList ∧
    (∀ texto f, detectar_fecha_emision texto = some f →
      f.length = 8 ∧ f.all Char.isDigit = true) := by
  refine ⟨by decide, by decide, ?_⟩
  intro texto f h
  rw [detectar_fecha_emision] at h
  split at h
  · cases h
    rename_i f1 h1
    exact normalizarFecha_larga (buscaFechaGenerica_shape texto f1 h1)
  · split at h
    · cases h
      rename_i f1 h1
      exact normalizarFecha_larga (buscaFechaEmision_shape texto f1 h1)
    · split at h
      · cases h
        rename_i f1 h1
        exact normalizarFecha_larga (buscaFechaLargaAux_shape texto none f1 h1)
      · split at h
        · cases h
          rename_i f1 h1
          exact normalizarFecha_corta (buscaFechaCortaAux_shape texto none f1 h1)
        · cases h

theorem c9_normalizacion_fecha_witness :
    "20240305".toList.length = 8 ∧ "20240305".toList.all Char.isDigit = true :=
  c9_normalizacion_fecha.2.2 "05/03/2024".toList "20240305".toList (by decide)

/-- Modelled from the spec's words (claim C7): the allowed output set
"letter, digit, space, hyphen, period, ampersand" (letters taken
generously, diacritics included). -/
def permitidoSegunSpec (c : Char) : Bool :=
  c.isAlpha || c.isDigit || letrasAcentuadas.contains c ||
  c = ' ' || c = '-' || c = '.' || c = '&'

/-- The spec set of C7 extended with the underscore, which `\w` keeps. -/
def permitidoConGuionBajo (c : Char) : Bool :=
  permitidoSegunSpec c || c = '_'

theorem mem_of_mem_dropWhile {p : Char → Bool} {l : List Char} {c : Char}
    (h : c ∈ l.dropWhile p) : c ∈ l :=
  (List.dropWhile_sublist p).subset h

theorem mem_of_mem_strip {l : List Char} {c : Char} (h : c ∈ strip l) : c ∈ l := by
  rw [strip, List.mem_reverse] at h
  exact mem_of_mem_dropWhile (List.mem_reverse.1 (mem_of_mem_dropWhile h))

theorem mem_of_mem_stripSeparadores {l : List Char} {c : Char}
    (h : c ∈ stripSeparadores l) : c ∈ l := by
  rw [stripSeparadores, List.mem_reverse] at h
  exact mem_of_mem_dropWhile (List.mem_reverse.1 (mem_of_mem_dropWhile h))

theorem stripSeparadores_length_le (l : List Char) :
    (stripSeparadores l).length ≤ l.length := by
  rw [stripSeparadores]
  calc ((l.dropWhile esSeparadorFin).reverse.dropWhile esSeparadorFin).reverse.length
      = ((l.dropWhile esSeparadorFin).reverse.dropWhile esSeparadorFin).length := by
        rw [List.length_reverse]
    _ ≤ (l.dropWhile esSeparadorFin).reverse.length :=
        (List.dropWhile_sublist _).length_le
    _ = (l.dropWhile esSeparadorFin).length := by rw [List.length_reverse]
    _ ≤ l.length := (List.dropWhile_sublist _).length_le

theorem colapsaWS_fold_mem :
    ∀ (l : List Char) (st : List Char × Bool) (d : Char),
      d ∈ (l.foldl colapsaPaso st).1 →
      d ∈ st.1 ∨ d = ' ' ∨ (esWS d = false ∧ d ∈ l) := by
  intro l
  induction l with
  | nil =>
    intro st d hd
    exact Or.inl hd
  | cons x xs ih =>
    intro st d hd
    rw [List.foldl_cons] at hd
    rcases ih (colapsaPaso st x) d hd with hst | hsp | ⟨hw, hm⟩
    · rw [colapsaPaso] at hst
      by_cases hx : esWS x = true
      · rw [if_pos hx] at hst
        by_cases hb : st.2 = true
        · rw [if_pos hb] at hst
          exact Or.inl hst
        · rw [if_neg hb] at hst
          rcases List.mem_cons.1 hst with rfl | hst2
          · exact Or.inr (Or.inl rfl)
          · exact Or.inl hst2
      · rw [if_neg hx] at hst
        rcases List.mem_cons.1 hst with rfl | hst2
        · exact Or.inr (Or.inr ⟨Bool.not_eq_true _ ▸ hx, List.mem_cons_self _ _⟩)
        · exact Or.inl hst2
    · exact Or.inr (Or.inl hsp)
    · exact Or.inr (Or.inr ⟨hw, List.mem_cons_of_mem _ hm⟩)

/-- Characters surviving the whitespace collapse are a single space or a
non-whitespace character of the input. -/
theorem mem_colapsaWS {l : List Char} {c : Char} (h : c ∈ colapsaWS l) :
    c = ' ' ∨ (esWS c = false ∧ c ∈ l) := by
  rw [colapsaWS, List.mem_reverse] at h
  rcases colapsaWS_fold_mem l ([], false) c h with h0 | h1 | h2
  · cases h0
  · exact Or.inl h1
  · exact Or.inr h2

theorem palabra_permitido {c : Char} (h : esPalabraChar c = true) :
    permitidoConGuionBajo c = true := by
  rw [esPalabraChar] at h
  rw [permitidoConGuionBajo, permitidoSegunSpec]
  simp only [Bool.or_eq_true, decide_eq_true_eq] at h ⊢
  tauto

/-- C7 (counterexample): the sanitizer keeps the underscore (it is in
`\w`), a character outside the claimed set {letter, digit, space, hyphen,
period, ampersand}: sanitizing `"a_b"` yields `"a_b"`. -/
theorem c7_contraejemplo :
    '_' ∈ sanear_para_nombre_archivo "a_b".toList 80 ∧
    permitidoSegunSpec '_' = false := by
  refine ⟨by decide, by decide⟩

/-- C7 (amended): for every input string and configured maximum, the
sanitized identity token contains no character outside {letter, digit,
space, underscore, hyphen, period, ampersand}, and its length is at most
the configured maximum. -/
theorem c7_enmendado (s : List Char) (m : Nat) :
    (∀ c ∈ sanear_para_nombre_archivo s m, permitidoConGuionBajo c = true) ∧
    (sanear_para_nombre_archivo s m).length ≤ m := by
  constructor
  · intro c hc
    rw [sanear_para_nombre_archivo] at hc
    have h1 := mem_of_mem_stripSeparadores hc
    have h2 := (List.take_sublist _ _).subset h1
    have h3 := mem_of_mem_strip h2
    rcases mem_colapsaWS h3 with rfl | ⟨hw, hm⟩
    · decide
    · have hps := (List.mem_filter.1 hm).2
      rw [permitidoSanear] at hps
      simp only [Bool.or_eq_true, decide_eq_true_eq] at hps
      rcases hps with (((hp | hwt) | hh) | hd) | ha
      · exact palabra_permitido hp
      · simp [hw] at hwt
      · subst hh; decide
      · subst hd; decide
      · subst ha; decide
  · rw [sanear_para_nombre_archivo]
    calc (stripSeparadores ((strip (colapsaWS
            (((s.flatMap unidecodeChar).filter permitidoSanear)))).take m)).length
        ≤ ((strip (colapsaWS
            (((s.flatMap unidecodeChar).filter permitidoSanear)))).take m).length :=
          stripSeparadores_length_le _
      _ ≤ m := by
          rw [List.length_take]
          exact Nat.min_le_left _ _

theorem c7_enmendado_witness :
    permitidoConGuionBajo '&' = true ∧
    (sanear_para_nombre_archivo "Acme & Co. SA".toList 80).length ≤ 80 :=
  ⟨(c7_enmendado "Acme & Co. SA".toList 80).1 '&' (by decide),
   (c7_enmendado "Acme & Co. SA".toList 80).2⟩

/-- Structural form of the decimal digits of `n` (most significant
first), matching what `Nat.toDigitsCore` computes with sufficient fuel. -/
def misDigitos (n : Nat) : List Char :=
  if h : n < 10 then [Nat.digitChar n]
  else misDigitos (n / 10) ++ [Nat.digitChar (n % 10)]
termination_by n
decreasing_by exact Nat.div_lt_self (by omega) (by omega)

theorem toDigitsCore_eq_misDigitos :
    ∀ (fuel n : Nat) (ds : List Char), n < fuel →
      Nat.toDigitsCore 10 fuel n ds = misDigitos n ++ ds := by
  intro fuel
  induction fuel with
  | zero => intro n ds h; exact absurd h (Nat.not_lt_zero n)
  | succ m ih =>
    intro n ds h
    rw [Nat.toDigitsCore]
    by_cases h0 : n / 10 = 0
    · rw [if_pos h0]
      have hn : n < 10 := by omega
      rw [misDigitos, dif_pos hn, Nat.mod_eq_of_lt hn]
      rfl
    · rw [if_neg h0]
      have hn : ¬ n < 10 := by omega
      have hrec : n / 10 < m := by omega
      rw [ih (n / 10) (Nat.digitChar (n % 10) :: ds) hrec]
      conv_rhs => rw [misDigitos]
      rw [dif_neg hn, List.append_assoc]
      rfl

theorem reprL_eq_misDigitos (n : Nat) : reprL n = misDigitos n := by
  have h1 : reprL n = Nat.toDigitsCore 10 (n + 1) n [] := rfl
  rw [h1, toDigitsCore_eq_misDigitos (n + 1) n [] (Nat.lt_succ_self n),
    List.append_nil]

def valorDigs (l : List Char) : Nat :=
  l.foldl (fun a c => 10 * a + (c.toNat - 48)) 0

theorem digitChar_toNat {d : Nat} (h : d < 10) : (Nat.digitChar d).toNat = d + 48 := by
  interval_cases d <;> rfl

theorem valor_misDigitos (n : Nat) : valorDigs (misDigitos n) = n := by
  induction n using Nat.strong_induction_on with
  | _ n ih =>
    by_cases h : n < 10
    · rw [misDigitos, dif_pos h]
      show (fun a c => 10 * a + (c.toNat - 48)) 0 (Nat.digitChar n) = n
      beta_reduce
      rw [digitChar_toNat h]
      omega
    · rw [misDigitos, dif_neg h]
      have hlt : n / 10 < n := Nat.div_lt_self (by omega) (by omega)
      have hmod : n % 10 < 10 := Nat.mod_lt n (by omega)
      rw [valorDigs, List.foldl_append]
      have hv : List.foldl (fun a c => 10 * a + (c.toNat - 48)) 0 (misDigitos (n / 10)) =
          n / 10 := ih (n / 10) hlt
      rw [hv]
      show 10 * (n / 10) + ((Nat.digitChar (n % 10)).toNat - 48) = n
      rw [digitChar_toNat hmod]
      omega

theorem reprL_inj {m n : Nat} (h : reprL m = reprL n) : m = n := by
  rw [reprL_eq_misDigitos, reprL_eq_misDigitos] at h
  have := congrArg valorDigs h
  rwa [valor_misDigitos, valor_misDigitos] at this

theorem candidato_inj {base ext : List Char} {i j : Nat}
    (h : candidato base ext i = candidato base ext j) : i = j := by
  rw [candidato, candidato] at h
  have h2 := List.append_cancel_left h
  injection h2 with _ h3
  exact reprL_inj (List.append_cancel_right h3)

/-- Pigeonhole over the finite filesystem: among any `fs.length + 1`
consecutive disambiguator indices there is a free candidate path. -/
theorem existeLibre (base ext : List Char) :
    ∀ (N : Nat) (fs : List (List Char)), fs.length ≤ N → ∀ (i : Nat),
      ∃ j, i ≤ j ∧ j < i + fs.length + 1 ∧ candidato base ext j ∉ fs := by
  intro N
  induction N with
  | zero =>
    intro fs hfs i
    have he : fs = [] := List.length_eq_zero.1 (Nat.le_zero.1 hfs)
    subst he
    exact ⟨i, le_refl i, by simp, by simp⟩
  | succ N ih =>
    intro fs hfs i
    by_cases hmem : candidato base ext i ∈ fs
    · have hpos : 0 < fs.length := List.length_pos_of_mem hmem
      have hlen : (fs.erase (candidato base ext i)).length = fs.length - 1 :=
        List.length_erase_of_mem hmem
      obtain ⟨j, hij, hjb, hnot⟩ :=
        ih (fs.erase (candidato base ext i)) (by omega) (i + 1)
      refine ⟨j, by omega, by omega, ?_⟩
      intro hj
      have hne : candidato base ext j ≠ candidato base ext i := by
        intro e
        have := candidato_inj e
        omega
      exact hnot ((List.mem_erase_of_ne hne).2 hj)
    · exact ⟨i, le_refl i, by omega, hmem⟩

theorem bucle_libre (fs : List (List Char)) (base ext : List Char) :
    ∀ (fuel i : Nat) (destino : List Char), destino ∉ fs →
      bucleColisiones fs base ext fuel i destino = destino := by
  intro fuel i destino h
  cases fuel with
  | zero => rfl
  | succ m => rw [bucleColisiones, if_neg h]

/-- With enough fuel, the collision loop started at an occupied path stops
at the first free disambiguator index. -/
theorem bucle_spec (fs : List (List Char)) (base ext : List Char) :
    ∀ (fuel i : Nat) (destino : List Char),
      destino ∈ fs →
      (∃ j, i ≤ j ∧ j < i + fuel ∧ candidato base ext j ∉ fs) →
      ∃ k, i ≤ k ∧
        bucleColisiones fs base ext fuel i destino = candidato base ext k ∧
        candidato base ext k ∉ fs ∧
        ∀ j, i ≤ j → j < k → candidato base ext j ∈ fs := by
  intro fuel
  induction fuel with
  | zero =>
    intro i destino _ hex
    obtain ⟨j, hij, hj0, _⟩ := hex
    omega
  | succ m ih =>
    intro i destino hd hex
    rw [bucleColisiones, if_pos hd]
    by_cases hci : candidato base ext i ∈ fs
    · obtain ⟨j, hij, hjb, hjn⟩ := hex
      have hexm : ∃ j, i + 1 ≤ j ∧ j < (i + 1) + m ∧ candidato base ext j ∉ fs := by
        refine ⟨j, ?_, by omega, hjn⟩
        rcases Nat.eq_or_lt_of_le hij with rfl | hlt
        · exact absurd hci hjn
        · omega
      obtain ⟨k, hik, hres, hkn, hall⟩ := ih (i + 1) (candidato base ext i) hci hexm
      refine ⟨k, by omega, hres, hkn, ?_⟩
      intro j2 hj2 hj2k
      rcases Nat.eq_or_lt_of_le hj2 with rfl | hlt
      · exact hci
      · exact hall j2 (by omega) hj2k
    · exact ⟨i, le_refl i, bucle_libre fs base ext m (i + 1) _ hci, hci,
        fun j h1 h2 => absurd h2 (by omega)⟩

/-- Full characterization of `evitarColisiones` over a finite filesystem. -/
theorem evitar_spec (fs : List (List Char)) (destino : List Char) :
    evitarColisiones fs destino ∉ fs ∧
    (destino ∉ fs → evitarColisiones fs destino = destino) ∧
    (destino ∈ fs →
      ∃ k, 2 ≤ k ∧
        evitarColisiones fs destino =
          candidato (splitext destino).1 (splitext destino).2 k ∧
        ∀ j, 2 ≤ j → j < k →
          candidato (splitext destino).1 (splitext destino).2 j ∈ fs) := by
  by_cases hd : destino ∈ fs
  · obtain ⟨j, hij, hjb, hjn⟩ :=
      existeLibre (splitext destino).1 (splitext destino).2 fs.length fs
        (le_refl _) 2
    obtain ⟨k, hik, hres, hkn, hall⟩ :=
      bucle_spec fs (splitext destino).1 (splitext destino).2 (fs.length + 2) 2
        destino hd ⟨j, hij, by omega, hjn⟩
    have hev : evitarColisiones fs destino =
        candidato (splitext destino).1 (splitext destino).2 k := hres
    refine ⟨?_, fun hnd => absurd hd hnd, fun _ => ⟨k, hik, hev, hall⟩⟩
    rw [hev]
    exact hkn
  · have hev : evitarColisiones fs destino = destino :=
      bucle_libre fs (splitext destino).1 (splitext destino).2 (fs.length + 2) 2
        destino hd
    refine ⟨?_, fun _ => hev, fun hc => absurd hc hd⟩
    rw [hev]
    exact hd

/-- C8: over a filesystem modelled as a finite set of existing paths, the
collision-avoidance loop re-checks existence after each increment and
terminates with a path not in that set; when the initially built path
exists, the returned path is the original with a numeric disambiguator
`(k)` inserted immediately before the extension, `k` being the smallest
integer ≥ 2 yielding a non-existing path; and a successive run over the
same target name (with the first result now existing) returns a distinct
name with a strictly larger disambiguator. -/
theorem c8_colisiones (fs : List (List Char)) (destino : List Char) :
    evitarColisiones fs destino ∉ fs ∧
    (destino ∉ fs → evitarColisiones fs destino = destino) ∧
    (destino ∈ fs →
      ∃ k, 2 ≤ k ∧
        evitarColisiones fs destino =
          candidato (splitext destino).1 (splitext destino).2 k ∧
        (∀ j, 2 ≤ j → j < k →
          candidato (splitext destino).1 (splitext destino).2 j ∈ fs) ∧
        ∃ k2, k < k2 ∧
          evitarColisiones (evitarColisiones fs destino :: fs) destino =
            candidato (splitext destino).1 (splitext destino).2 k2 ∧
          evitarColisiones (evitarColisiones fs destino :: fs) destino ≠
            evitarColisiones fs destino) := by
  obtain ⟨hfree, hsin, hcon⟩ := evitar_spec fs destino
  refine ⟨hfree, hsin, fun hd => ?_⟩
  obtain ⟨k, hk2, hkeq, hkleast⟩ := hcon hd
  obtain ⟨hfree2, _, hcon2⟩ := evitar_spec (evitarColisiones fs destino :: fs) destino
  obtain ⟨k2, hk22, hk2eq, _⟩ := hcon2 (List.mem_cons_of_mem _ hd)
  have hne : evitarColisiones (evitarColisiones fs destino :: fs) destino ≠
      evitarColisiones fs destino := by
    intro e
    apply hfree2
    rw [e]
    exact List.mem_cons_self _ _
  refine ⟨k, hk2, hkeq, hkleast, k2, ?_, hk2eq, hne⟩
  rcases Nat.lt_trichotomy k k2 with h | h | h
  · exact h
  · exfalso
    apply hfree2
    rw [hk2eq, ← h, ← hkeq]
    exact List.mem_cons_self _ _
  · exfalso
    apply hfree2
    rw [hk2eq]
    exact List.mem_cons_of_mem _ (hkleast k2 hk22 h)

theorem c8_colisiones_witness :
    ∃ k, 2 ≤ k ∧
      evitarColisiones ["o.pdf".toList] "o.pdf".toList =
        candidato (splitext "o.pdf".toList).1 (splitext "o.pdf".toList).2 k ∧
      (∀ j, 2 ≤ j → j < k →
        candidato (splitext "o.pdf".toList).1 (splitext "o.pdf".toList).2 j ∈
          ["o.pdf".toList]) ∧
      ∃ k2, k < k2 ∧
        evitarColisiones
            (evitarColisiones ["o.pdf".toList] "o.pdf".toList :: ["o.pdf".toList])
            "o.pdf".toList =
          candidato (splitext "o.pdf".toList).1 (splitext "o.pdf".toList).2 k2 ∧
        evitarColisiones
            (evitarColisiones ["o.pdf".toList] "o.pdf".toList :: ["o.pdf".toList])
            "o.pdf".toList ≠
          evitarColisiones ["o.pdf".toList] "o.pdf".toList :=
  (c8_colisiones ["o.pdf".toList] "o.pdf".toList).2.2 (by decide)

set_option maxRecDepth 4000 in
/-- C4 (counterexample): a document whose detected identity sanitizes to
the empty token is processed WITHOUT a distinct error: the renaming core
succeeds and builds an output filename containing the empty identity token
between its separators.  Here the detected identity is 80 underscores
followed by `"AB CD"`: it is viable, but truncation to 80 characters and
the final separator strip leave nothing. -/
theorem c4_contraejemplo :
    detectar_nombre_cliente
        ("Razón Social: ".toList ++ List.replicate 80 '_' ++ "AB CD".toList) =
      some (List.replicate 80 '_' ++ "AB CD".toList) ∧
    sanear_para_nombre_archivo (List.replicate 80 '_' ++ "AB CD".toList) 80 = [] ∧
    renombrar_nucleo
        ("Razón Social: ".toList ++ List.replicate 80 '_' ++ "AB CD".toList)
        "doc".toList [] [] =
      Except.ok "SINFECHA__doc.pdf".toList := by
  refine ⟨by decide, by decide, by rfl⟩

/-- C4 (amended): whenever the detected identity sanitizes to an empty
token, `renombrar_pdf` raises no error at all: it succeeds and builds the
output filename with an empty identity token (two consecutive
underscores); the distinct sanitization-empty error exists only in the
helper `construir_nuevo_nombre`, which the processing path never calls. -/
theorem c4_enmendado (texto base cliente : List Char)
    (h : detectar_nombre_cliente texto = some cliente)
    (hs : sanear_para_nombre_archivo cliente 80 = []) :
    renombrar_nucleo texto base [] [] =
      Except.ok (fechaONada texto ++ "__".toList ++ base ++ ".pdf".toList) ∧
    (∀ ruta, construir_nuevo_nombre ruta cliente =
      Except.error "No se pudo sanear el nombre del cliente.") := by
  have hne : cliente ≠ [] := viable_ne_nil (detectar_viable texto cliente h)
  constructor
  · rw [renombrar_nucleo, h]
    dsimp only
    rw [if_neg hne, hs]
    have hdest : unePath []
        (fechaONada texto ++ '_' ::
          (List.map (fun c => if c = ' ' then '_' else c) [] ++
            '_' :: (base ++ ".pdf".toList))) =
        fechaONada texto ++ '_' ::
          (List.map (fun c => if c = ' ' then '_' else c) [] ++
            '_' :: (base ++ ".pdf".toList)) := by
      rw [unePath, if_pos rfl]
    rw [hdest]
    have hev := (evitar_spec []
      (fechaONada texto ++ '_' ::
        (List.map (fun c => if c = ' ' then '_' else c) [] ++
          '_' :: (base ++ ".pdf".toList)))).2.1 (by simp)
    rw [hev]
    simp
  · intro ruta
    rw [construir_nuevo_nombre]
    dsimp only
    rw [hs]
    rfl

set_option maxRecDepth 4000 in
theorem c4_enmendado_witness :
    renombrar_nucleo
        ("Razón Social: ".toList ++ List.replicate 80 '_' ++ "AB CD".toList)
        "doc".toList [] [] =
      Except.ok
        (fechaONada
            ("Razón Social: ".toList ++ List.replicate 80 '_' ++ "AB CD".toList) ++
          "__".toList ++ "doc".toList ++ ".pdf".toList) :=
  (c4_enmendado
    ("Razón Social: ".toList ++ List.replicate 80 '_' ++ "AB CD".toList)
    "doc".toList (List.replicate 80 '_' ++ "AB CD".toList)
    (by decide) (by decide)).1

/-- C10: the date extractor performs no calendar-range validation: on the
text `"99/99/99"`, whose only slash-separated digit group is not a real
date, it still returns the normalized string `"20999999"` rather than the
absence sentinel. -/
theorem c10_sin_validacion_calendario :
    detectar_fecha_emision "99/99/99".toList = some "20999999".toList := by
  decide

end Novafact
